import Mathlib

/-!
Verification of the port-template tree-mutation core and persistence adapter.

The program under study is a browser-based editor for an ordered, labeled
tree ("port template").  Its core is the hook `usePortTemplate`
(src/src/hooks/usePortTemplate.ts): an in-memory forest of nodes of type
`TreeNodeType` (src/src/types/TreeNode.ts), three structural operations
(`addNode`, `deleteNode`, `updateNode`), an `activeNodeId` reference, and a
persistence layer (`handleSave`, `clearStorage`, and a load-on-mount effect)
that serializes the forest as JSON under the single localStorage key
"treeData".  The component `PortTemplate`
(src/src/components/template/PortTemplate.tsx) contains an inline duplicate
of the same state logic whose load effect lacks the try/catch of the hook;
both load variants are embedded below.

Modelling decisions:
* `TreeNodeType[]` (an ordered array of nodes, each with an ordered
  `children` array) is embedded as the mutually inductive pair
  `TreeNode`/`Forest`; `Forest` is an ordered sequence isomorphic to
  `List TreeNode`.  The optional TypeScript fields `readOnly?: boolean` and
  `isLast?: boolean` are embedded as `Option Bool` (absent = `none`), which
  is exactly the JavaScript presence/absence distinction that
  `JSON.stringify` observes.
* JavaScript object spread `{ ...n, ...patch }`, which the code uses for
  `updateNode`, is embedded via `Patch` (every field optional) and
  `mergeNode`: a field present in the patch wins, an absent one keeps the
  node's value.
* The durable store (localStorage) maps string keys to strings.  A stored
  string either parses as a JSON value or makes `JSON.parse` throw; we
  embed a stored string by that outcome (`StoredText.jsonText j` for a
  string whose parse yields the JSON value `j`, `StoredText.corrupt s` for
  a string that is not valid JSON).  `JSON.stringify` always produces text
  that parses back to the same JSON value, so saving is embedded as
  storing `jsonText` of the forest's JSON encoding.
* The identifier generator (uuid v4) is external; operations that generate
  an id take the fresh id as an explicit argument.
-/

/-! ## Data model: TreeNodeType (src/src/types/TreeNode.ts) -/

mutual
/-- One tree element: `TreeNodeType = {id: string; value: string; label: string;
children: TreeNodeType[]; readOnly?: boolean; isLast?: boolean}`. -/
inductive TreeNode : Type where
  | mk (id : String) (value : String) (label : String) (children : Forest)
       (readOnly : Option Bool) (isLast : Option Bool)
/-- An ordered sequence of nodes (`TreeNodeType[]`): both the document's root
sequence and every `children` array. -/
inductive Forest : Type where
  | nil : Forest
  | cons (n : TreeNode) (ns : Forest) : Forest
end

def TreeNode.id : TreeNode → String
  | .mk i _ _ _ _ _ => i

def TreeNode.value : TreeNode → String
  | .mk _ v _ _ _ _ => v

def TreeNode.label : TreeNode → String
  | .mk _ _ l _ _ _ => l

def TreeNode.children : TreeNode → Forest
  | .mk _ _ _ cs _ _ => cs

def TreeNode.readOnly : TreeNode → Option Bool
  | .mk _ _ _ _ r _ => r

def TreeNode.isLast : TreeNode → Option Bool
  | .mk _ _ _ _ _ il => il

/-- Concatenation of node sequences (JavaScript array spread `[...a, ...b]`). -/
def Forest.append : Forest → Forest → Forest
  | .nil, ms => ms
  | .cons n ns, ms => .cons n (Forest.append ns ms)

/-! ## The structural operations (src/src/hooks/usePortTemplate.ts) -/

/-- The node constructed by `addNode`:
`{id: uuidv4(), label: "child", value: "", children: []}` (lines 31-36).
The fresh uuid is passed in explicitly. -/
def newChildNode (freshId : String) : TreeNode :=
  .mk freshId "" "child" .nil none none

/-- The `updateTree` closure of `addNode` (lines 37-42): map over the
sequence; a node whose id equals `parentId` gets `nw` appended at the end of
its children (`{...node, children: [...node.children, newNode]}`, the
children are not traversed further); any other node is copied with the map
applied recursively to its children. -/
def addForest (parentId : String) (nw : TreeNode) : Forest → Forest
  | .nil => .nil
  | .cons (.mk i v l cs r il) ns =>
    .cons (if i = parentId
             then .mk i v l (cs.append (.cons nw .nil)) r il
             else .mk i v l (addForest parentId nw cs) r il)
          (addForest parentId nw ns)

/-- The `updateTree` closure of `deleteNode` (lines 48-51):
`nodes.filter(n => n.id !== nodeId).map(n => ({...n, children: updateTree(n.children)}))`.
The filter-then-map over an array is rendered as one recursion over the
sequence: a node whose id matches is dropped with its whole subtree, a
surviving node is copied with the deletion applied recursively to its
children. -/
def deleteForest (nodeId : String) : Forest → Forest
  | .nil => .nil
  | .cons (.mk i v l cs r il) ns =>
    if i = nodeId
      then deleteForest nodeId ns
      else .cons (.mk i v l (deleteForest nodeId cs) r il) (deleteForest nodeId ns)

/-- A runtime argument to `updateNode`.  The TypeScript signature declares a
full `TreeNodeType`, but the operation's body is the untyped object spread
`{ ...n, ...node }`, whose behavior depends only on which keys the argument
actually carries; `Patch` records exactly that (a `none` field = key
absent). -/
structure Patch where
  id : Option String
  value : Option String
  label : Option String
  children : Option Forest
  readOnly : Option Bool
  isLast : Option Bool

/-- JavaScript object spread `{ ...n, ...patch }` (line 59): every key
present in the patch overwrites the node's field, every absent key keeps the
node's field. -/
def mergeNode : TreeNode → Patch → TreeNode
  | .mk i v l cs r il, p =>
    .mk (p.id.getD i) (p.value.getD v) (p.label.getD l) (p.children.getD cs)
        (match p.readOnly with | some b => some b | none => r)
        (match p.isLast with | some b => some b | none => il)

/-- The `updateTree` closure of `updateNode` (lines 56-62): map over the
sequence; the node whose id equals `nodeId` becomes `{ ...n, ...node }` (its
children are not traversed further); any other node is copied with the map
applied recursively to its children. -/
def updateForest (nodeId : String) (p : Patch) : Forest → Forest
  | .nil => .nil
  | .cons (.mk i v l cs r il) ns =>
    .cons (if i = nodeId
             then mergeNode (.mk i v l cs r il) p
             else .mk i v l (updateForest nodeId p cs) r il)
          (updateForest nodeId p ns)

/-- The hook's in-memory state: `tree` and `activeNodeId` (lines 15-16). -/
structure HookState where
  tree : Forest
  activeNodeId : Option String

/-- `addNode(parentId)` (lines 30-45): builds the new node from a fresh
uuid, sets `activeNodeId` to the new node's id, and replaces the tree with
`updateTree(tree)`.  Both effects are unconditional. -/
def addNodeOp (parentId freshId : String) (s : HookState) : HookState :=
  { tree := addForest parentId (newChildNode freshId) s.tree
    activeNodeId := some freshId }

/-- `deleteNode(nodeId)` (lines 47-53): replaces the tree; `activeNodeId` is
left as-is. -/
def deleteNodeOp (nodeId : String) (s : HookState) : HookState :=
  { s with tree := deleteForest nodeId s.tree }

/-- `updateNode(nodeId, node)` (lines 55-63): replaces the tree;
`activeNodeId` is left as-is. -/
def updateNodeOp (nodeId : String) (p : Patch) (s : HookState) : HookState :=
  { s with tree := updateForest nodeId p s.tree }

/-! ## Persistence (localStorage + JSON) -/

mutual
/-- A JSON value, as produced by `JSON.parse`.  Only the constructors the
forest's serialized shape can use are relevant; `null` and `num` stand in
for every other JSON value so that ill-shaped documents are expressible. -/
inductive Json : Type where
  | str (s : String)
  | bool (b : Bool)
  | num (n : Int)
  | null
  | arr (elems : JsonList)
  | obj (fields : JsonFields)
/-- The elements of a JSON array, in order. -/
inductive JsonList : Type where
  | nil : JsonList
  | cons (j : Json) (js : JsonList) : JsonList
/-- The key/value pairs of a JSON object, in insertion order. -/
inductive JsonFields : Type where
  | nil : JsonFields
  | cons (key : String) (val : Json) (rest : JsonFields) : JsonFields
end

/-- A string held by the durable store, embedded by what `JSON.parse` does
to it: `jsonText j` is a string whose parse yields the value `j` (for every
JSON value there is such a string, e.g. the `JSON.stringify` output);
`corrupt s` is a string (recorded verbatim) that is not valid JSON, on
which `JSON.parse` throws a `SyntaxError`. -/
inductive StoredText : Type where
  | jsonText (j : Json)
  | corrupt (s : String)

/-- `JSON.parse` on a stored string: the parsed value, or the thrown
`SyntaxError` (carrying the offending text). -/
def jsonParse : StoredText → Except String Json
  | .jsonText j => .ok j
  | .corrupt s => .error s

/-- The durable key-value store (localStorage): an association list from
keys to stored strings. -/
abbrev Store := List (String × StoredText)

/-- `localStorage.getItem(key)`: the stored string, or `none` when the key
is absent. -/
def getItem (store : Store) (key : String) : Option StoredText :=
  (store.find? (fun kv => kv.fst == key)).map (·.snd)

/-- `localStorage.removeItem(key)`: drops the key. -/
def removeItem (store : Store) (key : String) : Store :=
  store.filter (fun kv => kv.fst != key)

/-- `localStorage.setItem(key, v)`: unconditionally overwrites any prior
value at the key. -/
def setItem (store : Store) (key : String) (v : StoredText) : Store :=
  (key, v) :: removeItem store key

mutual
/-- The JSON value `JSON.stringify` derives from one node: an object with
the node's fields in declaration order; the optional `readOnly`/`isLast`
keys are emitted only when present (JavaScript omits `undefined`
properties).  Key order is irrelevant to reading the value back. -/
def encodeNode : TreeNode → Json
  | .mk i v l cs r il =>
    .obj (.cons "id" (.str i) (.cons "value" (.str v) (.cons "label" (.str l)
      (.cons "children" (.arr (encodeList cs))
        (optBoolField "readOnly" r (optBoolField "isLast" il .nil))))))
/-- The JSON array `JSON.stringify` derives from a node sequence. -/
def encodeList : Forest → JsonList
  | .nil => .nil
  | .cons n ns => .cons (encodeNode n) (encodeList ns)
/-- Emits `key: bool` when the optional field is present, nothing when it is
absent. -/
def optBoolField (key : String) (o : Option Bool) (rest : JsonFields) : JsonFields :=
  match o with
  | none => rest
  | some b => .cons key (.bool b) rest
end

/-- Accumulator for reading a node object field by field; a `none` entry
means the key has not occurred (yet). -/
structure NodeAcc where
  id : Option String
  value : Option String
  label : Option String
  children : Option Forest
  readOnly : Option Bool
  isLast : Option Bool

mutual
/-- Reads a JSON value as one `TreeNodeType`; `none` when the value does not
have the forest's serialized shape.  (The TypeScript code performs no such
check — `setTree(JSON.parse(...))` is an unchecked cast — so `none` marks
the states in which the untyped program would carry a value outside
`TreeNodeType[]`.) -/
def decodeNode : Json → Option TreeNode
  | .obj fs => decodeFields fs ⟨none, none, none, none, none, none⟩
  | _ => none
/-- Walks an object's key/value pairs in order (later duplicates win, as in
`JSON.parse`), ignoring unknown keys; at the end the four mandatory fields
must all have occurred with the right types. -/
def decodeFields : JsonFields → NodeAcc → Option TreeNode
  | .nil, acc =>
    match acc.id, acc.value, acc.label, acc.children with
    | some i, some v, some l, some cs => some (.mk i v l cs acc.readOnly acc.isLast)
    | _, _, _, _ => none
  | .cons k j rest, acc =>
    if k = "id" then
      match j with
      | .str s => decodeFields rest { acc with id := some s }
      | _ => none
    else if k = "value" then
      match j with
      | .str s => decodeFields rest { acc with value := some s }
      | _ => none
    else if k = "label" then
      match j with
      | .str s => decodeFields rest { acc with label := some s }
      | _ => none
    else if k = "children" then
      match j with
      | .arr xs =>
        match decodeList xs with
        | some cs => decodeFields rest { acc with children := some cs }
        | none => none
      | _ => none
    else if k = "readOnly" then
      match j with
      | .bool b => decodeFields rest { acc with readOnly := some b }
      | _ => none
    else if k = "isLast" then
      match j with
      | .bool b => decodeFields rest { acc with isLast := some b }
      | _ => none
    else decodeFields rest acc
/-- Reads a JSON array element-wise as a node sequence. -/
def decodeList : JsonList → Option Forest
  | .nil => some .nil
  | .cons j js =>
    match decodeNode j, decodeList js with
    | some n, some ns => some (.cons n ns)
    | _, _ => none
end

/-- Reads a JSON value as a whole `TreeNodeType[]` document. -/
def decodeForest : Json → Option Forest
  | .arr xs => decodeList xs
  | _ => none

/-- Serializes a forest: the JSON value whose `JSON.stringify` text is
written to the store. -/
def encodeForest (ns : Forest) : Json := .arr (encodeList ns)

/-- The whole application state: the durable store plus the hook's
in-memory state. -/
structure AppState where
  store : Store
  tree : Forest
  activeNodeId : Option String

/-- `handleSave` (usePortTemplate.ts lines 65-68):
`localStorage.setItem("treeData", JSON.stringify(tree))`.  The user-visible
`alert` is presentation-only. -/
def handleSave (s : AppState) : AppState :=
  { s with store := setItem s.store "treeData" (.jsonText (encodeForest s.tree)) }

/-- `clearStorage` (usePortTemplate.ts lines 70-75):
`localStorage.removeItem("treeData"); setTree([]); setActiveNodeId(null)`.
The user-visible `alert` is presentation-only. -/
def clearStorage (s : AppState) : AppState :=
  { store := removeItem s.store "treeData", tree := .nil, activeNodeId := none }

/-- The hook's load-on-mount effect (usePortTemplate.ts lines 18-28): read
"treeData"; if absent the tree stays at its current value; if present,
`JSON.parse` it inside try/catch — on success `setTree` the parsed value
(result `none` when that value is outside the forest shape, see
`decodeNode`), on a parse error warn and `setTree([])`.  The error is not
propagated. -/
def hookLoad (store : Store) (tree0 : Forest) : Option Forest :=
  match getItem store "treeData" with
  | none => some tree0
  | some txt =>
    match jsonParse txt with
    | .ok j => decodeForest j
    | .error _ => some .nil

/-- The inline load effect of the `PortTemplate` component
(src/src/components/template/PortTemplate.tsx lines 11-16): identical to
`hookLoad` except that `JSON.parse` is NOT wrapped in try/catch, so a parse
failure propagates as a thrown `SyntaxError` (`Except.error`). -/
def componentLoad (store : Store) (tree0 : Forest) : Except String (Option Forest) :=
  match getItem store "treeData" with
  | none => .ok (some tree0)
  | some txt =>
    match jsonParse txt with
    | .ok j => .ok (decodeForest j)
    | .error e => .error e

/-! ## Observations of a forest

These definitions flatten a forest in traversal order — root-to-leaf,
siblings in array order (each node before its children, children before the
following sibling) — so that presence, absence, relative order and field
values of nodes can be stated as facts about ordinary lists. -/

/-- All node ids of a forest, in traversal order. -/
def idsOf : Forest → List String
  | .nil => []
  | .cons (.mk i _ _ cs _ _) ns => i :: (idsOf cs ++ idsOf ns)

/-- Everything of a node except its position and its children list: the
record a node keeps when a mutation elsewhere rebuilds the forest around
it. -/
structure NodeFields where
  id : String
  value : String
  label : String
  readOnly : Option Bool
  isLast : Option Bool
deriving DecidableEq, Repr

/-- The field records of all nodes of a forest, in traversal order. -/
def fieldsOf : Forest → List NodeFields
  | .nil => []
  | .cons (.mk i v l cs r il) ns => ⟨i, v, l, r, il⟩ :: (fieldsOf cs ++ fieldsOf ns)

/-- The ids of every node lying in the subtree of some node whose id is
`target` (the node itself included), in traversal order.  For a forest with
unique ids this is exactly "the node with that id and its descendants". -/
def subtreeIds (target : String) : Forest → List String
  | .nil => []
  | .cons (.mk i _ _ cs _ _) ns =>
    (if i = target then i :: idsOf cs else subtreeIds target cs) ++ subtreeIds target ns

/-! ## Induction principle and basic lemmas -/

/-- Structural induction over forests: a property closed under `nil` and
under consing a node whose children already satisfy it. -/
theorem forestInduction (P : Forest → Prop)
    (hnil : P .nil)
    (hcons : ∀ i v l cs r il ns, P cs → P ns → P (.cons (.mk i v l cs r il) ns)) :
    ∀ ns, P ns
  | .nil => hnil
  | .cons (.mk i v l cs r il) ns =>
    hcons i v l cs r il ns (forestInduction P hnil hcons cs) (forestInduction P hnil hcons ns)

theorem idsOf_append : ∀ a b : Forest, idsOf (a.append b) = idsOf a ++ idsOf b := by
  intro a
  induction a using forestInduction with
  | hnil => intro b; rfl
  | hcons i v l cs r il ns ihc ihn =>
    intro b
    simp [Forest.append, idsOf, ihn]

theorem subtreeIds_subset_idsOf (t : String) :
    ∀ ns : Forest, ∀ x ∈ subtreeIds t ns, x ∈ idsOf ns := by
  refine forestInduction _ ?_ ?_
  · intro x hx; exact absurd hx (by simp [subtreeIds])
  · intro i v l cs r il ns ihc ihn x hx
    simp only [subtreeIds, List.mem_append] at hx
    simp only [idsOf, List.mem_cons, List.mem_append]
    rcases hx with hx | hx
    · by_cases h : i = t
      · simp [h] at hx
        rcases hx with hx | hx
        · exact Or.inl (by simp [hx, h])
        · exact Or.inr (Or.inl hx)
      · simp [h] at hx
        exact Or.inr (Or.inl (ihc x hx))
    · exact Or.inr (Or.inr (ihn x hx))

theorem subtreeIds_of_not_mem (t : String) :
    ∀ ns : Forest, t ∉ idsOf ns → subtreeIds t ns = [] := by
  refine forestInduction _ ?_ ?_
  · intro _; rfl
  · intro i v l cs r il ns ihc ihn h
    simp only [idsOf, List.mem_cons, List.mem_append] at h
    push_neg at h
    obtain ⟨h1, h2, h3⟩ := h
    simp [subtreeIds, Ne.symm h1, ihc h2, ihn h3]

theorem mem_subtreeIds_self (t : String) :
    ∀ ns : Forest, t ∈ idsOf ns → t ∈ subtreeIds t ns := by
  refine forestInduction _ ?_ ?_
  · intro h; exact absurd h (by simp [idsOf])
  · intro i v l cs r il ns ihc ihn h
    simp only [idsOf, List.mem_cons, List.mem_append] at h
    simp only [subtreeIds, List.mem_append]
    rcases h with h | h | h
    · exact Or.inl (by simp [h.symm])
    · by_cases hit : i = t
      · exact Or.inl (by simp [hit])
      · exact Or.inl (by simp [hit]; exact ihc h)
    · exact Or.inr (ihn h)

theorem fieldsOf_map_id : ∀ ns : Forest, (fieldsOf ns).map NodeFields.id = idsOf ns := by
  refine forestInduction _ ?_ ?_
  · rfl
  · intro i v l cs r il ns ihc ihn
    simp [fieldsOf, idsOf, ihc, ihn]

theorem mem_fieldsOf_id {r : NodeFields} {ns : Forest} (h : r ∈ fieldsOf ns) :
    r.id ∈ idsOf ns := by
  rw [← fieldsOf_map_id]
  exact List.mem_map_of_mem NodeFields.id h

/-! ## Spec-side descriptions of the mutations

The two definitions below are transcriptions of the spec's wording (spec.md
section 8, properties 2 and 4), to be compared with the operations
transcribed from the code.  Each walks the whole forest and rebuilds every
node with all fields, children structure and sibling order intact, changing
nothing except the one effect named by the spec sentence. -/

/-- Transcription of "changes only the `value` field of the targeted node;
sibling nodes and the target's own `id`/`children` remain intact": every
node keeps its position and all fields, except that a node whose id is
`target` has its value replaced by `v`. -/
def valuePatched (target v : String) : Forest → Forest
  | .nil => .nil
  | .cons (.mk i v0 l cs r il) ns =>
    .cons (.mk i (if i = target then v else v0) l (valuePatched target v cs) r il)
          (valuePatched target v ns)

/-- Transcription of "adding a child to node `P` leaves every other node's
`value`, `label`, `readOnly`, and relative sibling order unchanged;
`P.children` grows by exactly one element appended at the end": every node
keeps its position and all fields, except that a node whose id is `target`
gets `nw` appended at the end of its children. -/
def childAppendedAt (target : String) (nw : TreeNode) : Forest → Forest
  | .nil => .nil
  | .cons (.mk i v l cs r il) ns =>
    .cons (.mk i v l
            (if i = target
               then (childAppendedAt target nw cs).append (.cons nw .nil)
               else childAppendedAt target nw cs) r il)
          (childAppendedAt target nw ns)

/-! ## Miss lemmas: an id matching no node makes every walk the identity -/

theorem addForest_of_not_mem (t : String) (nw : TreeNode) :
    ∀ ns : Forest, t ∉ idsOf ns → addForest t nw ns = ns := by
  refine forestInduction _ ?_ ?_
  · intro _; rfl
  · intro i v l cs r il ns ihc ihn h
    simp only [idsOf, List.mem_cons, List.mem_append] at h
    push_neg at h
    obtain ⟨h1, h2, h3⟩ := h
    simp [addForest, Ne.symm h1, ihc h2, ihn h3]

theorem deleteForest_of_not_mem (t : String) :
    ∀ ns : Forest, t ∉ idsOf ns → deleteForest t ns = ns := by
  refine forestInduction _ ?_ ?_
  · intro _; rfl
  · intro i v l cs r il ns ihc ihn h
    simp only [idsOf, List.mem_cons, List.mem_append] at h
    push_neg at h
    obtain ⟨h1, h2, h3⟩ := h
    simp [deleteForest, Ne.symm h1, ihc h2, ihn h3]

theorem updateForest_of_not_mem (t : String) (p : Patch) :
    ∀ ns : Forest, t ∉ idsOf ns → updateForest t p ns = ns := by
  refine forestInduction _ ?_ ?_
  · intro _; rfl
  · intro i v l cs r il ns ihc ihn h
    simp only [idsOf, List.mem_cons, List.mem_append] at h
    push_neg at h
    obtain ⟨h1, h2, h3⟩ := h
    simp [updateForest, Ne.symm h1, ihc h2, ihn h3]

theorem valuePatched_of_not_mem (t v : String) :
    ∀ ns : Forest, t ∉ idsOf ns → valuePatched t v ns = ns := by
  refine forestInduction _ ?_ ?_
  · intro _; rfl
  · intro i v0 l cs r il ns ihc ihn h
    simp only [idsOf, List.mem_cons, List.mem_append] at h
    push_neg at h
    obtain ⟨h1, h2, h3⟩ := h
    simp [valuePatched, Ne.symm h1, ihc h2, ihn h3]

theorem childAppendedAt_of_not_mem (t : String) (nw : TreeNode) :
    ∀ ns : Forest, t ∉ idsOf ns → childAppendedAt t nw ns = ns := by
  refine forestInduction _ ?_ ?_
  · intro _; rfl
  · intro i v l cs r il ns ihc ihn h
    simp only [idsOf, List.mem_cons, List.mem_append] at h
    push_neg at h
    obtain ⟨h1, h2, h3⟩ := h
    simp [childAppendedAt, Ne.symm h1, ihc h2, ihn h3]

/-! ## Update and add against their spec-side descriptions (unique ids) -/

/-- A runtime `updateNode` argument carrying only a `value` key
(`{value: v}`). -/
def valueOnlyPatch (v : String) : Patch := ⟨none, some v, none, none, none, none⟩

theorem updateForest_valueOnly (t v : String) :
    ∀ ns : Forest, (idsOf ns).Nodup →
      updateForest t (valueOnlyPatch v) ns = valuePatched t v ns := by
  refine forestInduction _ ?_ ?_
  · intro _; rfl
  · intro i v0 l cs r il ns ihc ihn hnd
    rw [idsOf, List.nodup_cons, List.nodup_append] at hnd
    obtain ⟨hi, hcs, hns, _⟩ := hnd
    have hics : i ∉ idsOf cs := fun hc => hi (List.mem_append.mpr (Or.inl hc))
    by_cases h : i = t
    · subst h
      have hm : mergeNode (.mk i v0 l cs r il) (valueOnlyPatch v) = .mk i v l cs r il := rfl
      simp [updateForest, valuePatched, hm,
            valuePatched_of_not_mem i v cs hics, ihn hns]
    · simp [updateForest, valuePatched, h, ihc hcs, ihn hns]

theorem addForest_childAppended (t : String) (nw : TreeNode) :
    ∀ ns : Forest, (idsOf ns).Nodup →
      addForest t nw ns = childAppendedAt t nw ns := by
  refine forestInduction _ ?_ ?_
  · intro _; rfl
  · intro i v l cs r il ns ihc ihn hnd
    rw [idsOf, List.nodup_cons, List.nodup_append] at hnd
    obtain ⟨hi, hcs, hns, _⟩ := hnd
    have hics : i ∉ idsOf cs := fun hc => hi (List.mem_append.mpr (Or.inl hc))
    by_cases h : i = t
    · have htcs : t ∉ idsOf cs := h ▸ hics
      simp [addForest, childAppendedAt, h,
            childAppendedAt_of_not_mem t nw cs htcs, ihn hns]
    · simp [addForest, childAppendedAt, h, ihc hcs, ihn hns]

/-! ## Delete against the flattened forest (unique ids) -/

theorem fieldsOf_deleteForest (t : String) :
    ∀ ns : Forest, (idsOf ns).Nodup →
      fieldsOf (deleteForest t ns) =
        (fieldsOf ns).filter (fun q => decide (q.id ∉ subtreeIds t ns)) := by
  refine forestInduction _ ?_ ?_
  · intro _; rfl
  · intro i v l cs r il ns ihc ihn hnd
    rw [idsOf, List.nodup_cons, List.nodup_append] at hnd
    obtain ⟨hi, hcs, hns, hdisj⟩ := hnd
    have hics : i ∉ idsOf cs := fun hc => hi (List.mem_append.mpr (Or.inl hc))
    have hins : i ∉ idsOf ns := fun hc => hi (List.mem_append.mpr (Or.inr hc))
    by_cases h : i = t
    · subst h
      have hstep : deleteForest i (Forest.cons (.mk i v l cs r il) ns) = deleteForest i ns := by
        simp [deleteForest]
      have hbad : subtreeIds i (Forest.cons (.mk i v l cs r il) ns)
          = (i :: idsOf cs) ++ subtreeIds i ns := by
        simp [subtreeIds]
      have hfl : fieldsOf (Forest.cons (.mk i v l cs r il) ns)
          = ⟨i, v, l, r, il⟩ :: (fieldsOf cs ++ fieldsOf ns) := rfl
      rw [hstep, ihn hns, hfl]
      simp only [hbad]
      rw [List.filter_cons, List.filter_append]
      have hhead : (decide ((⟨i, v, l, r, il⟩ : NodeFields).id ∉ (i :: idsOf cs) ++ subtreeIds i ns)) = false := by
        simp
      have hnilcs : (fieldsOf cs).filter
          (fun q => decide (q.id ∉ (i :: idsOf cs) ++ subtreeIds i ns)) = [] := by
        rw [List.filter_eq_nil_iff]
        intro a ha
        have hacs : a.id ∈ idsOf cs := mem_fieldsOf_id ha
        simp [List.mem_append, hacs]
      have hcongr : (fieldsOf ns).filter
            (fun q => decide (q.id ∉ (i :: idsOf cs) ++ subtreeIds i ns))
          = (fieldsOf ns).filter (fun q => decide (q.id ∉ subtreeIds i ns)) := by
        apply List.filter_congr
        intro a ha
        have hans : a.id ∈ idsOf ns := mem_fieldsOf_id ha
        have h1 : a.id ≠ i := fun he => hins (he ▸ hans)
        have h2 : a.id ∉ idsOf cs := (List.disjoint_right.mp hdisj) hans
        simp [List.mem_append, List.mem_cons, h1, h2]
      rw [hhead, hnilcs, hcongr]
      simp
    · have hstep : deleteForest t (Forest.cons (.mk i v l cs r il) ns)
          = Forest.cons (.mk i v l (deleteForest t cs) r il) (deleteForest t ns) := by
        simp [deleteForest, h]
      have hbad : subtreeIds t (Forest.cons (.mk i v l cs r il) ns)
          = subtreeIds t cs ++ subtreeIds t ns := by
        simp [subtreeIds, h]
      have hfl : fieldsOf (Forest.cons (.mk i v l cs r il) ns)
          = ⟨i, v, l, r, il⟩ :: (fieldsOf cs ++ fieldsOf ns) := rfl
      have hfl2 : fieldsOf (Forest.cons (.mk i v l (deleteForest t cs) r il) (deleteForest t ns))
          = ⟨i, v, l, r, il⟩ :: (fieldsOf (deleteForest t cs) ++ fieldsOf (deleteForest t ns)) := rfl
      rw [hstep, hfl2, ihc hcs, ihn hns, hfl]
      simp only [hbad]
      rw [List.filter_cons, List.filter_append]
      have hhead : (decide ((⟨i, v, l, r, il⟩ : NodeFields).id ∉ subtreeIds t cs ++ subtreeIds t ns)) = true := by
        have h1 : i ∉ subtreeIds t cs := fun hc => hics (subtreeIds_subset_idsOf t cs i hc)
        have h2 : i ∉ subtreeIds t ns := fun hc => hins (subtreeIds_subset_idsOf t ns i hc)
        simp [List.mem_append, h1, h2]
      have hcongr1 : (fieldsOf cs).filter
            (fun q => decide (q.id ∉ subtreeIds t cs ++ subtreeIds t ns))
          = (fieldsOf cs).filter (fun q => decide (q.id ∉ subtreeIds t cs)) := by
        apply List.filter_congr
        intro a ha
        have hacs : a.id ∈ idsOf cs := mem_fieldsOf_id ha
        have h2 : a.id ∉ subtreeIds t ns := fun hc =>
          (List.disjoint_left.mp hdisj hacs) (subtreeIds_subset_idsOf t ns a.id hc)
        simp [List.mem_append, h2]
      have hcongr2 : (fieldsOf ns).filter
            (fun q => decide (q.id ∉ subtreeIds t cs ++ subtreeIds t ns))
          = (fieldsOf ns).filter (fun q => decide (q.id ∉ subtreeIds t ns)) := by
        apply List.filter_congr
        intro a ha
        have hans : a.id ∈ idsOf ns := mem_fieldsOf_id ha
        have h2 : a.id ∉ subtreeIds t cs := fun hc =>
          (List.disjoint_right.mp hdisj hans) (subtreeIds_subset_idsOf t cs a.id hc)
        simp [List.mem_append, h2]
      rw [hhead, hcongr1, hcongr2]
      simp

/-! ## Serialization round-trip -/

theorem decodeList_encodeList : ∀ ns : Forest, decodeList (encodeList ns) = some ns := by
  refine forestInduction _ ?_ ?_
  · rfl
  · intro i v l cs r il ns ihc ihn
    have hnode : decodeNode (encodeNode (.mk i v l cs r il)) = some (.mk i v l cs r il) := by
      cases r <;> cases il <;>
        simp [encodeNode, decodeNode, decodeFields, optBoolField, ihc]
    simp [encodeList, decodeList, hnode, ihn]

/-! ## Store lemmas -/

theorem getItem_setItem (store : Store) (key : String) (v : StoredText) :
    getItem (setItem store key v) key = some v := by
  simp [getItem, setItem, List.find?]

theorem getItem_removeItem (store : Store) (key : String) :
    getItem (removeItem store key) key = none := by
  simp [getItem, removeItem, List.find?_eq_none]


/-! ## Id bookkeeping of the three operations -/

theorem idsOf_cons (i v l : String) (cs : Forest) (r il : Option Bool) (ns : Forest) :
    idsOf (.cons (.mk i v l cs r il) ns) = i :: (idsOf cs ++ idsOf ns) := rfl

theorem idsOf_deleteForest_sublist (t : String) :
    ∀ ns : Forest, (idsOf (deleteForest t ns)).Sublist (idsOf ns) := by
  refine forestInduction _ ?_ ?_
  · simp [deleteForest]
  · intro i v l cs r il ns ihc ihn
    by_cases h : i = t
    · subst h
      have hstep : deleteForest i (Forest.cons (.mk i v l cs r il) ns) = deleteForest i ns := by
        simp [deleteForest]
      rw [hstep, idsOf_cons]
      exact ihn.trans ((List.sublist_append_right _ _).cons i)
    · have hstep : deleteForest t (Forest.cons (.mk i v l cs r il) ns)
          = Forest.cons (.mk i v l (deleteForest t cs) r il) (deleteForest t ns) := by
        simp [deleteForest, h]
      rw [hstep, idsOf_cons, idsOf_cons]
      exact (ihc.append ihn).cons₂ i

theorem idsOf_updateForest (t : String) (p : Patch) (hid : p.id = none)
    (hch : p.children = none) :
    ∀ ns : Forest, idsOf (updateForest t p ns) = idsOf ns := by
  refine forestInduction _ ?_ ?_
  · rfl
  · intro i v l cs r il ns ihc ihn
    by_cases h : i = t
    · subst h
      have hm : mergeNode (.mk i v l cs r il) p
          = .mk i (p.value.getD v) (p.label.getD l) cs
              (match p.readOnly with | some b => some b | none => r)
              (match p.isLast with | some b => some b | none => il) := by
        simp [mergeNode, hid, hch]
      have hstep : updateForest i p (Forest.cons (.mk i v l cs r il) ns)
          = Forest.cons (mergeNode (.mk i v l cs r il) p) (updateForest i p ns) := by
        simp [updateForest]
      rw [hstep, hm, idsOf_cons, idsOf_cons, ihn]
    · have hstep : updateForest t p (Forest.cons (.mk i v l cs r il) ns)
          = Forest.cons (.mk i v l (updateForest t p cs) r il) (updateForest t p ns) := by
        simp [updateForest, h]
      rw [hstep, idsOf_cons, idsOf_cons, ihc, ihn]

theorem idsOf_addForest (t fid : String) :
    ∀ ns : Forest,
      (idsOf ns).Sublist (idsOf (addForest t (newChildNode fid) ns)) ∧
      ∀ x ∈ idsOf (addForest t (newChildNode fid) ns), x ∈ idsOf ns ∨ x = fid := by
  refine forestInduction _ ?_ ?_
  · simp [addForest, idsOf]
  · intro i v l cs r il ns ihc ihn
    by_cases h : i = t
    · subst h
      have hstep : addForest i (newChildNode fid) (Forest.cons (.mk i v l cs r il) ns)
          = Forest.cons (.mk i v l (cs.append (.cons (newChildNode fid) .nil)) r il)
              (addForest i (newChildNode fid) ns) := by
        simp [addForest]
      have hids : idsOf (cs.append (.cons (newChildNode fid) .nil)) = idsOf cs ++ [fid] := by
        rw [idsOf_append]
        rfl
      rw [hstep, idsOf_cons, idsOf_cons, hids]
      constructor
      · refine List.Sublist.cons₂ i ?_
        exact (List.sublist_append_left (idsOf cs) [fid]).append ihn.1
      · intro x hx
        simp only [List.mem_cons, List.mem_append] at hx
        rcases hx with hx | (hx | hx) | hx
        · exact Or.inl (by simp [hx])
        · exact Or.inl (by simp [hx])
        · exact Or.inr (by simpa using hx)
        · rcases ihn.2 x hx with hx' | hx'
          · exact Or.inl (by simp [hx'])
          · exact Or.inr hx'
    · have hstep : addForest t (newChildNode fid) (Forest.cons (.mk i v l cs r il) ns)
          = Forest.cons (.mk i v l (addForest t (newChildNode fid) cs) r il)
              (addForest t (newChildNode fid) ns) := by
        simp [addForest, h]
      rw [hstep, idsOf_cons, idsOf_cons]
      constructor
      · exact (ihc.1.append ihn.1).cons₂ i
      · intro x hx
        simp only [List.mem_cons, List.mem_append] at hx
        rcases hx with hx | hx | hx
        · exact Or.inl (by simp [hx])
        · rcases ihc.2 x hx with hx' | hx'
          · exact Or.inl (by simp [hx'])
          · exact Or.inr hx'
        · rcases ihn.2 x hx with hx' | hx'
          · exact Or.inl (by simp [hx'])
          · exact Or.inr hx'

theorem count_idsOf_deleteForest (t : String) :
    ∀ ns : Forest, (idsOf (deleteForest t ns)).count t = 0 := by
  refine forestInduction _ ?_ ?_
  · simp [deleteForest, idsOf]
  · intro i v l cs r il ns ihc ihn
    by_cases h : i = t
    · simp [deleteForest, h, ihn]
    · simp [deleteForest, h, idsOf, List.count_append, List.count_cons, ihc, ihn]

/-! ## Concrete sample data -/

/-- A leaf node nested two levels deep. -/
def nodeD : TreeNode := .mk "d" "dv" "child" .nil none none

/-- An inner node (one child, readOnly set). -/
def nodeB : TreeNode := .mk "b" "bv" "child" (.cons nodeD .nil) (some true) none

/-- A leaf sibling of `nodeB`. -/
def nodeC : TreeNode := .mk "c" "cv" "child" .nil none none

/-- A root with two children. -/
def nodeA : TreeNode := .mk "a" "av" "root" (.cons nodeB (.cons nodeC .nil)) none none

/-- A second root. -/
def nodeE : TreeNode := .mk "e" "ev" "root" .nil (some false) none

/-- A sample document with unique ids:
two roots, nesting depth three, both optional fields exercised. -/
def sampleForest : Forest := .cons nodeA (.cons nodeE .nil)

/-- First of two root nodes sharing the id "x". -/
def dupFirst : TreeNode := .mk "x" "first" "root" .nil none none

/-- Second of two root nodes sharing the id "x". -/
def dupSecond : TreeNode := .mk "x" "second" "root" .nil none none

/-- A malformed document (externally supplied data) with a duplicated id. -/
def dupForest : Forest := .cons dupFirst (.cons dupSecond .nil)

/-- A store holding, under the persistence key, the literal text
"not-valid-json" — a string on which `JSON.parse` throws. -/
def corruptStore : Store := [("treeData", .corrupt "not-valid-json")]

/-- A runtime `updateNode` argument carrying an `id` key (`{id: "b"}`). -/
def idPatch : Patch := ⟨some "b", none, none, none, none, none⟩

/-- A one-node document with id "a". -/
def singleA : Forest := .cons (.mk "a" "av" "root" .nil none none) .nil

/-! ## The claims -/

/-- C1 — Round-trip persistence: for every forest `F` (and any prior store
content and active id), saving `F` (`handleSave`: serialize to the single
key "treeData") and then loading in a fresh hook instance (mount state
`[]`) yields exactly the forest `F`. -/
theorem save_load_round_trip (F : Forest) (st : Store) (a : Option String) :
    hookLoad (handleSave ⟨st, F, a⟩).store .nil = some F := by
  have hget : getItem (handleSave ⟨st, F, a⟩).store "treeData"
      = some (.jsonText (encodeForest F)) := getItem_setItem st "treeData" _
  simp [hookLoad, hget, jsonParse, decodeForest, encodeForest, decodeList_encodeList]

/-- C2 — Miss is a no-op on the forest: an id matching no node makes each of
`addNode`'s, `deleteNode`'s and `updateNode`'s tree walks return the forest
unchanged (structurally equal; the code produces a fresh copy), raising no
error (the operations are total functions). -/
theorem miss_is_noop (t : String) (nw : TreeNode) (p : Patch) (F : Forest)
    (h : t ∉ idsOf F) :
    addForest t nw F = F ∧ deleteForest t F = F ∧ updateForest t p F = F :=
  ⟨addForest_of_not_mem t nw F h, deleteForest_of_not_mem t F h,
   updateForest_of_not_mem t p F h⟩

/-- Witness for C2 at a concrete forest and the id "missing". -/
theorem miss_is_noop_witness :
    "missing" ∉ idsOf sampleForest ∧
      (addForest "missing" (newChildNode "z") sampleForest = sampleForest ∧
       deleteForest "missing" sampleForest = sampleForest ∧
       updateForest "missing" (valueOnlyPatch "w") sampleForest = sampleForest) :=
  ⟨by decide,
   miss_is_noop "missing" (newChildNode "z") (valueOnlyPatch "w") sampleForest (by decide)⟩

/-- C3 — Delete removes the whole subtree and nothing else: in a forest with
unique ids containing a node with id `t`, the flattening (traversal order,
field records) of `deleteForest t F` is exactly the flattening of `F` with
the records of the targeted subtree (`subtreeIds t F`, which contains `t`
itself) filtered out — so the target and all its descendants are absent,
and every other node is present, with unchanged fields, in its original
relative position. -/
theorem delete_removes_subtree (t : String) (F : Forest)
    (huniq : (idsOf F).Nodup) (hmem : t ∈ idsOf F) :
    t ∈ subtreeIds t F ∧
    fieldsOf (deleteForest t F) =
      (fieldsOf F).filter (fun q => decide (q.id ∉ subtreeIds t F)) :=
  ⟨mem_subtreeIds_self t F hmem, fieldsOf_deleteForest t F huniq⟩

/-- Witness for C3: deleting the inner node "b" (whose subtree is
\x7b"b", "d"\x7d) from the sample forest. -/
theorem delete_removes_subtree_witness :
    ((idsOf sampleForest).Nodup ∧ "b" ∈ idsOf sampleForest) ∧
      ("b" ∈ subtreeIds "b" sampleForest ∧
       fieldsOf (deleteForest "b" sampleForest) =
         (fieldsOf sampleForest).filter
           (fun q => decide (q.id ∉ subtreeIds "b" sampleForest))) :=
  ⟨⟨by decide, by decide⟩,
   delete_removes_subtree "b" sampleForest (by decide) (by decide)⟩

/-- C4 — Update is a field merge, not a replace: in a forest with unique ids
containing a node with id `t`, `updateNode` with a patch carrying only a
`value` key equals the map that rewrites exactly the `value` field of the
targeted node (`valuePatched`): the target's `id`/`children` and every other
node are intact.  (That present patch fields win and absent ones are kept is
the definition of the embedded spread, `mergeNode`.) -/
theorem update_merges_value (t v : String) (F : Forest)
    (huniq : (idsOf F).Nodup) (_hmem : t ∈ idsOf F) :
    updateForest t (valueOnlyPatch v) F = valuePatched t v F :=
  updateForest_valueOnly t v F huniq

/-- Witness for C4: updating node "b" of the sample forest with
`\x7bvalue: "newv"\x7d`. -/
theorem update_merges_value_witness :
    ((idsOf sampleForest).Nodup ∧ "b" ∈ idsOf sampleForest) ∧
      updateForest "b" (valueOnlyPatch "newv") sampleForest =
        valuePatched "b" "newv" sampleForest :=
  ⟨⟨by decide, by decide⟩,
   update_merges_value "b" "newv" sampleForest (by decide) (by decide)⟩

/-- C5 — Corrupt storage recovery: with the durable store holding the
literal text "not-valid-json" under the tree key, the hook's load
(usePortTemplate.ts, try/catch) yields the empty forest and raises nothing,
exactly as the claim states; but the inline load of the `PortTemplate`
component (PortTemplate.tsx lines 11-16, cited by the claim, no try/catch)
propagates the parse error to the caller and never resets the tree — there
the claim fails on the code. -/
theorem corrupt_storage_behavior :
    hookLoad corruptStore .nil = some .nil ∧
    componentLoad corruptStore .nil = Except.error "not-valid-json" :=
  ⟨rfl, rfl⟩

/-- Counterexample for C6: two root nodes share the id "x";
`deleteNode("x")` removes BOTH of them (the result is the empty forest),
whereas the claim says at most one node — the first match — is modified and
every other node carrying the id is left unmodified. -/
theorem duplicate_ids_counterexample :
    dupFirst.id = "x" ∧ dupSecond.id = "x" ∧ deleteForest "x" dupForest = .nil :=
  ⟨rfl, rfl, rfl⟩

/-- C6 as amended — On duplicate ids the operations are not limited to one
target: `deleteNode` removes every node carrying the id (no occurrence of
the id survives anywhere in the forest), and `addNode` and `updateNode`
modify every matching node not nested inside another match — concretely,
both of two root nodes sharing an id receive the appended child,
respectively the patch. -/
theorem duplicate_ids_all_matches :
    (∀ (t : String) (F : Forest), (idsOf (deleteForest t F)).count t = 0) ∧
    addForest "x" (newChildNode "y") dupForest =
      .cons (.mk "x" "first" "root" (.cons (newChildNode "y") .nil) none none)
        (.cons (.mk "x" "second" "root" (.cons (newChildNode "y") .nil) none none) .nil) ∧
    updateForest "x" (valueOnlyPatch "vv") dupForest =
      .cons (.mk "x" "vv" "root" .nil none none)
        (.cons (.mk "x" "vv" "root" .nil none none) .nil) :=
  ⟨count_idsOf_deleteForest, rfl, rfl⟩

/-- C7 — Add-child preserves siblings: in a forest with unique ids
containing a node with id `t`, `addNode`'s tree walk equals the map that
leaves every node's fields, children structure and sibling order intact
except for appending the one new node at the end of the target's children
(`childAppendedAt`). -/
theorem add_child_preserves_siblings (t fid : String) (F : Forest)
    (huniq : (idsOf F).Nodup) (_hmem : t ∈ idsOf F) :
    addForest t (newChildNode fid) F = childAppendedAt t (newChildNode fid) F :=
  addForest_childAppended t (newChildNode fid) F huniq

/-- Witness for C7: adding a child to the inner node "b" of the sample
forest. -/
theorem add_child_preserves_siblings_witness :
    ((idsOf sampleForest).Nodup ∧ "b" ∈ idsOf sampleForest) ∧
      addForest "b" (newChildNode "z") sampleForest =
        childAppendedAt "b" (newChildNode "z") sampleForest :=
  ⟨⟨by decide, by decide⟩,
   add_child_preserves_siblings "b" "z" sampleForest (by decide) (by decide)⟩

/-- C8 — Unconditional activation on add-child: for every state and every
`parentId` — matching or not — `addNode` sets `activeNodeId` to the freshly
generated id, and the node it builds has empty value, label "child" and no
children. -/
theorem add_node_unconditional_activation (pid fid : String) (s : HookState) :
    (addNodeOp pid fid s).activeNodeId = some fid ∧
    newChildNode fid = .mk fid "" "child" .nil none none :=
  ⟨rfl, rfl⟩

/-- Counterexample for C9: `updateNode("a", {id: "b"})` on the one-node
forest with id "a" — the JavaScript spread lets the patch's `id` key
overwrite the node's id, so the node present before and after the operation
changes its id from "a" to "b", contradicting "ids are never changed
thereafter". -/
theorem id_overwrite_counterexample :
    updateForest "a" idPatch singleA = .cons (.mk "b" "av" "root" .nil none none) .nil ∧
    idsOf singleA = ["a"] ∧ idsOf (updateForest "a" idPatch singleA) = ["b"] :=
  ⟨rfl, rfl, rfl⟩

/-- C9 as amended — Id immutability holds for every operation except an
update whose patch itself carries an id: `deleteNode` keeps the surviving
nodes' ids (a sub-sequence of the original traversal), `updateNode` with a
patch carrying neither `id` nor `children` keys preserves the id traversal
exactly, and `addNode` keeps every existing id (the original traversal is a
sub-sequence of the new one) while every id of the result is an old id or
the freshly generated one. -/
theorem id_immutability_amended :
    (∀ (t : String) (F : Forest), (idsOf (deleteForest t F)).Sublist (idsOf F)) ∧
    (∀ (t : String) (p : Patch) (F : Forest),
       p.id = none → p.children = none → idsOf (updateForest t p F) = idsOf F) ∧
    (∀ (t fid : String) (F : Forest),
       (idsOf F).Sublist (idsOf (addForest t (newChildNode fid) F)) ∧
       ∀ x ∈ idsOf (addForest t (newChildNode fid) F), x ∈ idsOf F ∨ x = fid) :=
  ⟨idsOf_deleteForest_sublist,
   fun t p F hid hch => idsOf_updateForest t p hid hch F,
   fun t fid F => idsOf_addForest t fid F⟩

/-- Witness for C9 (amended), middle part: a value-only patch on the sample
forest preserves the id traversal. -/
theorem id_immutability_amended_witness :
    idsOf (updateForest "a" (valueOnlyPatch "vv") sampleForest) = idsOf sampleForest :=
  id_immutability_amended.2.1 "a" (valueOnlyPatch "vv") sampleForest rfl rfl

/-- C10 — `clearStorage` performs the full reset in one call: it removes the
persistence key from the durable store, empties the in-memory forest and
clears `activeNodeId`; no separate caller-side reset is needed. -/
theorem clear_storage_full_reset (s : AppState) :
    getItem (clearStorage s).store "treeData" = none ∧
    (clearStorage s).tree = .nil ∧ (clearStorage s).activeNodeId = none :=
  ⟨getItem_removeItem s.store "treeData", rfl, rfl⟩
